import Mathlib

/-!
Verification of the ATAC pipeline's interval-processing core
(`pipeline_atac.py`): the replicate peak consolidator
(`mergeReplicatePeaks`), the GREAT-style regulatory-domain builder
(`writeGreat`) and the nearest-gene reduction (`regulatedTables`).

Coordinates are embedded as `Int` (BED integers); scores and other
floating-point attribute columns as `Rat`.  Python float arithmetic on
these inputs (sums, means, halving) is exact, so `Rat` models the values
computed by the source.
-/

deriving instance DecidableEq for Except

namespace Atac

/-! ### Interval Consolidator (`mergeReplicatePeaks`)

A peak record is one 10-column BED line:
`chrom, start, end, peak_id, score, strand, fold_change, p, q, summit`. -/

structure PeakRec where
  chrom : String
  pstart : Int
  pend : Int
  pid : String
  score : Rat
  strand : String
  fc : Rat
  pval : Rat
  qval : Rat
  summit : Rat
deriving DecidableEq, Repr

/-- Sort order used by `bedtools sort`: by chromosome (lexicographic),
then by start coordinate.  Ties keep input order (stable sort). -/
def peakLE (a b : PeakRec) : Prop :=
  a.chrom < b.chrom ∨ (a.chrom = b.chrom ∧ a.pstart ≤ b.pstart)

instance : DecidableRel peakLE := fun a b => by
  unfold peakLE; infer_instance

instance : IsTotal PeakRec peakLE where
  total a b := by
    unfold peakLE
    rcases lt_trichotomy a.chrom b.chrom with h | h | h
    · exact Or.inl (Or.inl h)
    · rcases le_total a.pstart b.pstart with h2 | h2
      · exact Or.inl (Or.inr ⟨h, h2⟩)
      · exact Or.inr (Or.inr ⟨h.symm, h2⟩)
    · exact Or.inr (Or.inl h)

instance : IsTrans PeakRec peakLE where
  trans a b c hab hbc := by
    unfold peakLE at *
    rcases hab with h1 | ⟨e1, l1⟩
    · rcases hbc with h2 | ⟨e2, _⟩
      · exact Or.inl (h1.trans h2)
      · exact Or.inl (e2 ▸ h1)
    · rcases hbc with h2 | ⟨e2, l2⟩
      · exact Or.inl (e1 ▸ h2)
      · exact Or.inr ⟨e1.trans e2, l1.trans l2⟩

/-- The (chromosome, start) sort key of a record. -/
def peakKey (a : PeakRec) : String × Int := (a.chrom, a.pstart)

/-- Model of `bedtools sort`: stable sort by (chromosome, start). -/
def sortPeaks (l : List PeakRec) : List PeakRec := l.insertionSort peakLE

/-- Group a position-sorted record list into runs of intervals that
overlap or touch (`bedtools merge` default distance 0), per chromosome.
Each group is returned as (first member, later members); the running
`curEnd` is the maximum end seen so far in the open group. -/
def mergeAux (h : PeakRec) (acc : List PeakRec) (curEnd : Int) :
    List PeakRec → List (PeakRec × List PeakRec)
  | [] => [(h, acc.reverse)]
  | y :: ys =>
    if y.chrom = h.chrom ∧ y.pstart ≤ curEnd then
      mergeAux h (y :: acc) (max curEnd y.pend) ys
    else
      (h, acc.reverse) :: mergeAux y [] y.pend ys

def mergeGroups : List PeakRec → List (PeakRec × List PeakRec)
  | [] => []
  | x :: xs => mergeAux x [] x.pend xs

/-- Arithmetic mean of a list of rationals (bedtools `mean`). -/
def qmean (l : List Rat) : Rat := l.sum / l.length

/-- Model of `bedtools merge -c 4,5,6,7,8,9,10 -o collapse,mean,first,mean,min,min,mean`
applied to one merged group: the interval is the union span; id is the
comma-joined member ids; score/fold-change/summit are means; strand is the
first member's; p and q are minima. -/
def aggregate (h : PeakRec) (rest : List PeakRec) : PeakRec :=
  let g := h :: rest
  { chrom := h.chrom
    pstart := h.pstart
    pend := (rest.map (·.pend)).foldl max h.pend
    pid := String.intercalate "," (g.map (·.pid))
    score := qmean (g.map (·.score))
    strand := h.strand
    fc := qmean (g.map (·.fc))
    pval := (rest.map (·.pval)).foldl min h.pval
    qval := (rest.map (·.qval)).foldl min h.qval
    summit := qmean (g.map (·.summit)) }

/-- All merged records of the sorted, concatenated input (the contents of
the `.tmp` file written by `mergeReplicatePeaks`). -/
def mergedOutput (l : List PeakRec) : List PeakRec :=
  (mergeGroups (sortPeaks l)).map (fun p => aggregate p.1 p.2)

/-- Model of `x.split("_")[3]`: the replicate field of one contributing peak id.
Identifiers follow the caller's `<sample>_<cond>_<tissue>_<rep>_peak<N>`
convention, which always carries at least four underscore-separated
fields; on an identifier with fewer fields the source raises an
IndexError, so every concrete identifier in this file follows the
convention. -/
def repOf (s : String) : String := (s.splitOn "_").getD 3 ""

/-- Model of `len(set(x.split("_")[3] for x in peak_id.split(",")))`: the number of
distinct replicate origins recovered from a merged record's comma-joined
identifier. -/
def distinctReps (r : PeakRec) : Nat :=
  (((r.pid.splitOn ",").map repOf).dedup).length

/-- The final filter of `mergeReplicatePeaks`: keep a merged record only
when its distinct replicate count reaches `rep_overlaps`. -/
def consolidateCat (l : List PeakRec) (minOverlap : Int) : List PeakRec :=
  (mergedOutput l).filter (fun r => decide (minOverlap ≤ (distinctReps r : Int)))

/-- Model of `mergeReplicatePeaks`: concatenate the replicate peak files
(`cat` with `postmerge=False`), sort, merge with the summary operations,
then keep records with enough distinct replicate origins. -/
def consolidate (files : List (List PeakRec)) (minOverlap : Int) : List PeakRec :=
  consolidateCat files.flatten minOverlap

/-! ### Concrete inputs used to settle the consolidator claims -/

/-- Two replicate peaks, with identifiers following the
`<sample>_<cond>_<tissue>_<rep>_peak<N>` convention, that tie on the
(chromosome, start) sort key but differ in end, identifier and
strand. -/
def cexPeakA : PeakRec := ⟨"c", 100, 200, "s_x_y_rep1_pA", 1, "+", 1, 1, 1, 10⟩

def cexPeakB : PeakRec := ⟨"c", 100, 250, "s_x_y_rep2_pB", 2, "-", 2, 2, 2, 20⟩

/-- Overlapping peaks from two replicates, following the
`<sample>_<cond>_<tissue>_<rep>_peak<N>` identifier convention. -/
def wPeak1 : PeakRec := ⟨"chr1", 100, 200, "s_x_y_rep1_p1", 5, "+", 2, 3, 4, 50⟩

def wPeak2 : PeakRec := ⟨"chr1", 150, 250, "s_x_y_rep2_p1", 7, "+", 4, 5, 6, 60⟩

/-- A peak that does not overlap `wPeak1` and has a distinct sort key. -/
def wPeak3 : PeakRec := ⟨"chr1", 300, 400, "s_x_y_rep1_p2", 1, "+", 1, 1, 1, 5⟩

/-! ### Regulatory Domain Annotator (`writeGreat`)

A gene location row is `[contig, gstart, gend, strand, gene_id]`; the
per-chromosome records built from it are `[tss, strand-label, gid]` with
strand-label `"plus"`, `"minus"`, or `"end"` for the synthetic
chromosome-end record. -/

structure GeneLoc where
  chrom : String
  gstart : Int
  gend : Int
  strand : String
  gid : String
deriving DecidableEq, Repr

/-- TSS of a gene: start on the plus strand, end on the minus strand
(any strand value other than `"-"` is treated as plus, as in the
source's `if strand_int == "-"` test). -/
def tssOf (g : GeneLoc) : Int := if g.strand = "-" then g.gend else g.gstart

structure TssRec where
  pos : Int
  strand : String
  gid : String
deriving DecidableEq, Repr

/-- The per-gene record appended to the genome map. -/
def geneRec (g : GeneLoc) : TssRec :=
  ⟨tssOf g, if g.strand = "-" then "minus" else "plus", g.gid⟩

/-- Test `chrom[3:5] == "NT" or chrom[3:] == "M"`: unplaced contigs and the
mitochondrial chromosome are skipped. -/
def excludedChrom (c : String) : Bool :=
  ((c.drop 3).take 2 == "NT") || (c.drop 3 == "M")

/-- Append a record to a chromosome's list in the insertion-ordered
association list, creating the key on first use (Python dict with
insertion-ordered keys). -/
def insertRec : List (String × List TssRec) → String → TssRec →
    List (String × List TssRec)
  | [], c, r => [(c, [r])]
  | (c', rs) :: g, c, r =>
    if c' = c then (c', rs ++ [r]) :: g else (c', rs) :: insertRec g c r

def buildGenomeAux : List (String × List TssRec) → List GeneLoc →
    List (String × List TssRec)
  | acc, [] => acc
  | acc, g :: gs =>
    if excludedChrom g.chrom then buildGenomeAux acc gs
    else buildGenomeAux (insertRec acc g.chrom (geneRec g)) gs

/-- The `genome` dict after the first loop of `writeGreat`. -/
def buildGenome (locations : List GeneLoc) : List (String × List TssRec) :=
  buildGenomeAux [] locations

/-- Number of contig-file entries whose contig is a key of the genome
map (`nmatched`); repeated entries count with multiplicity, as in the
source's per-line increment. -/
def matchedCount (genome : List (String × List TssRec))
    (contigs : List (String × Int)) : Nat :=
  (contigs.filter (fun e => genome.any (fun p => p.1 == e.1))).length

/-- Append one `[int(end), "end", "end"]` record per matching contig
entry to the chromosome's record list. -/
def appendEnds (genome : List (String × List TssRec))
    (contigs : List (String × Int)) : List (String × List TssRec) :=
  genome.map (fun p =>
    (p.1, p.2 ++ (contigs.filter (fun e => e.1 == p.1)).map
      (fun e => (⟨e.2, "end", "end"⟩ : TssRec))))

/-- Sort order of the per-chromosome record list:
`locs.sort(key = lambda entry: entry[0])`, a stable sort by position. -/
def recLE (a b : TssRec) : Prop := a.pos ≤ b.pos

instance : DecidableRel recLE := fun a b => by
  unfold recLE; infer_instance

instance : IsTotal TssRec recLE where
  total a b := le_total a.pos b.pos

instance : IsTrans TssRec recLE where
  trans a b c hab hbc := le_trans hab hbc

def sortRecs (l : List TssRec) : List TssRec := l.insertionSort recLE

/-- Model of `contig_end = locs[-1][0]`: the position of the last sorted record
(the record lists are never empty when this is evaluated). -/
def ceOf (l : List TssRec) : Int := ((l.getLast?).map (fun r => r.pos)).getD 0

inductive GreatError where
  | incompleteReference
  | indexError
deriving DecidableEq, Repr

/-- An emitted regulatory-domain row `[contig, regstart, regend, gid]`.
Coordinates are rational because Python's `/ 2` in `half` mode is true
division. -/
structure Dom where
  chrom : String
  regstart : Rat
  regend : Rat
  gid : String
deriving DecidableEq, Repr

/-- Far edge of the predecessor's basal domain (`frontstop`); `0` when
the gene is first on its chromosome. -/
def frontstopOf (bu bd : Int) : Option TssRec → Int
  | none => 0
  | some p => if p.strand = "plus" then p.pos + bd else p.pos + bu

/-- Near edge of the successor's basal domain (`backstop`). -/
def backstopOf (bu bd : Int) (n : TssRec) : Int :=
  if n.strand = "plus" then n.pos - bu else n.pos - bd

/-- Start of the gene's own basal domain. -/
def basalstartOf (bu bd : Int) (c : TssRec) : Int :=
  if c.strand = "plus" then c.pos - bu else c.pos - bd

/-- End of the gene's own basal domain, clipped at the chromosome end. -/
def basalendOf (bu bd ce : Int) (c : TssRec) : Int :=
  if c.strand = "plus" then min (c.pos + bd) ce else min (c.pos + bu) ce

/-- The regulatory start of one gene: the basal start when the
predecessor's far basal edge already intrudes into the basal domain,
otherwise the TSS minus the capped upstream extension (halved under
`half`, with Python's exact `/ 2`). -/
def regstartOf (bu bd mx : Int) (half : Bool) (prev : Option TssRec)
    (c : TssRec) : Rat :=
  if frontstopOf bu bd prev > basalstartOf bu bd c then
    ((basalstartOf bu bd c : Int) : Rat)
  else
    (c.pos : Rat) -
      (if half then
        min ((mx : Int) : Rat) (((c.pos : Rat) - ((frontstopOf bu bd prev : Int) : Rat)) / 2)
      else
        min ((mx : Int) : Rat) ((c.pos : Rat) - ((frontstopOf bu bd prev : Int) : Rat)))

/-- The regulatory end of one gene: symmetric to `regstartOf` using the
successor's near basal edge. -/
def regendOf (bu bd mx : Int) (half : Bool) (ce : Int) (c : TssRec)
    (nxt : TssRec) : Rat :=
  if backstopOf bu bd nxt < basalendOf bu bd ce c then
    ((basalendOf bu bd ce c : Int) : Rat)
  else
    (c.pos : Rat) +
      (if half then
        min ((mx : Int) : Rat) ((((backstopOf bu bd nxt : Int) : Rat) - (c.pos : Rat)) / 2)
      else
        min ((mx : Int) : Rat) (((backstopOf bu bd nxt : Int) : Rat) - (c.pos : Rat)))

/-- Loop body of `writeGreat`: the regulatory domain of one gene given
its predecessor (`prev`, `none` for the first record) and successor
(`nxt`) in sorted order. -/
def geneDomain (bu bd mx : Int) (half : Bool) (ce : Int) (chrom : String)
    (prev : Option TssRec) (c : TssRec) (nxt : TssRec) : Dom :=
  ⟨chrom, regstartOf bu bd mx half prev c, regendOf bu bd mx half ce c nxt, c.gid⟩

/-- The inner walk over one chromosome's sorted records: `"end"` records
are skipped (but still serve as predecessors); a gene record reads its
successor `locs[i+1]`, which raises an IndexError in the source when the
gene is last (no chromosome-end record after it). -/
def walkLocs (bu bd mx : Int) (half : Bool) (ce : Int) (chrom : String) :
    Option TssRec → List TssRec → Except GreatError (List Dom)
  | _, [] => .ok []
  | prev, c :: rest =>
    if c.strand = "end" then walkLocs bu bd mx half ce chrom (some c) rest
    else
      match rest with
      | [] => .error .indexError
      | nxt :: _ =>
        match walkLocs bu bd mx half ce chrom (some c) rest with
        | .error e => .error e
        | .ok ds => .ok (geneDomain bu bd mx half ce chrom prev c nxt :: ds)

/-- The predecessor the walk hands to a gene preceded by the prefix
`l1`: the last record of `l1`, or the walk's initial predecessor when
the prefix is empty (mirrors `locs[i-1]`, with `none` for `i = 0`). -/
def lastOr (prev : Option TssRec) : List TssRec → Option TssRec
  | [] => prev
  | r :: rs => lastOr (some r) rs

/-- Walk every chromosome of the genome map in key-insertion order,
concatenating the emitted domains. -/
def goChroms (bu bd mx : Int) (half : Bool) :
    List (String × List TssRec) → Except GreatError (List Dom)
  | [] => .ok []
  | (chrom, rs) :: rest =>
    match walkLocs bu bd mx half (ceOf (sortRecs rs)) chrom none (sortRecs rs) with
    | .error e => .error e
    | .ok ds =>
      match goChroms bu bd mx half rest with
      | .error e => .error e
      | .ok ds2 => .ok (ds ++ ds2)

/-- Model of `writeGreat(locations, basalup, basaldown, maxext, outfile, half)`:
build the genome map, register chromosome ends from the contig table,
fail when fewer than 21 entries matched, then emit one regulatory domain
per gene.  The output file is written only after the walk completes, so
an error yields no output at all. -/
def writeGreat (locations : List GeneLoc) (contigs : List (String × Int))
    (bu bd mx : Int) (half : Bool) : Except GreatError (List Dom) :=
  let genome := buildGenome locations
  if matchedCount genome contigs < 21 then .error .incompleteReference
  else goChroms bu bd mx half (appendEnds genome contigs)

/-! ### Concrete inputs used to settle the annotator claims -/

/-- A single plus-strand gene (TSS 3, closer to the chromosome start
than the basal-upstream distance 5) on one chromosome. -/
def wgLocs : List GeneLoc := [⟨"c1", 3, 20, "+", "g1"⟩]

/-- A contig table with 21 entries for that one chromosome, so that the
chromosome-end check passes while only one chromosome has a registered
end. -/
def wgContigs : List (String × Int) := List.replicate 21 ("c1", 50)

/-- Two plus-strand genes 3 bp apart, closer than
`basal_upstream + basal_downstream`. -/
def cex3Locs : List GeneLoc :=
  [⟨"c1", 3, 20, "+", "g1"⟩, ⟨"c1", 6, 25, "+", "g2"⟩]

def cex3Contigs : List (String × Int) := List.replicate 21 ("c1", 50)

/-- A gene whose TSS (7) gives an odd gap to the chromosome start. -/
def c10Locs : List GeneLoc := [⟨"c1", 7, 30, "+", "gX"⟩]

def c10Contigs : List (String × Int) := List.replicate 21 ("c1", 50)

/-! ### Nearest-gene reduction (`regulatedTables`)

The SQL join feeds one row per (peak, candidate gene) pair into a Python
loop that writes the intermediate table, followed by the shell pipeline
`sed "s,-,,g" | awk '{print $4..$10,$1,$2,$3}' | sort -k8,8 -k9,9n -k7,7n
| uniq -f7 | awk '{print $8,$9,$10,$1..$7}'`. -/

/-- Model of `getTSS`: gene start on strand `"+"`, gene end on `"-"` (the source
raises a ValueError for any other strand; the join only yields `+`/`-`
strands). -/
def getTSS (gs ge : Int) (strand : String) : Int :=
  if strand = "+" then gs else ge

structure JoinRow where
  contig : String
  pstart : Int
  pend : Int
  peak_id : String
  peak_score : Rat
  no_peaks : Int
  peak_width : Int
  peak_centre : Rat
  gene_id : String
  gene_name : String
  gene_strand : String
  gene_start : Int
  gene_end : Int
deriving DecidableEq, Repr

/-- One data row of the intermediate table, columns
`contig, pstart, pend, peak_id, peak_score, peak_width, peak_centre,
tssdist, gene_id, tss`. -/
structure TableRow where
  contig : String
  pstart : Int
  pend : Int
  peak_id : String
  peak_score : Rat
  peak_width : Int
  peak_centre : Rat
  tssdist : Rat
  gene_id : String
  tss : Int
deriving DecidableEq, Repr

/-- The Python loop body: `ploc = (pstart + pend)/2` (true division),
`tssdist = tss - ploc` for plus-strand genes and `ploc - tss` for
minus-strand genes (`gstrand` is 1 exactly when the strand is `"+"`). -/
def makeRow (r : JoinRow) : TableRow :=
  let tss := getTSS r.gene_start r.gene_end r.gene_strand
  let ploc : Rat := ((r.pstart : Rat) + (r.pend : Rat)) / 2
  let tssdist : Rat :=
    if r.gene_strand = "+" then (tss : Rat) - ploc else ploc - (tss : Rat)
  ⟨r.contig, r.pstart, r.pend, r.peak_id, r.peak_score, r.peak_width,
    r.peak_centre, tssdist, r.gene_id, tss⟩

/-- The `sed` hyphen deletion removes every hyphen of the rendered line; on rows
whose other fields are hyphen-free its effect is to strip the sign of
the distance column. -/
def sedAbs (r : TableRow) : TableRow := { r with tssdist := |r.tssdist| }

/-- Model of `sort -k8,8 -k9,9n -k7,7n` over the awk-reordered line
`peak_id peak_score peak_width peak_centre tssdist gene_id tss contig
pstart pend`: field 8 is the contig, field 9 the peak start and field 7
the gene TSS — the distance column (field 5) is not a sort key. -/
def rowLE (a b : TableRow) : Prop :=
  a.contig < b.contig ∨ (a.contig = b.contig ∧
    (a.pstart < b.pstart ∨ (a.pstart = b.pstart ∧ a.tss ≤ b.tss)))

instance : DecidableRel rowLE := fun a b => by
  unfold rowLE; infer_instance

instance : IsTotal TableRow rowLE where
  total a b := by
    unfold rowLE
    rcases lt_trichotomy a.contig b.contig with h | h | h
    · exact Or.inl (Or.inl h)
    · rcases lt_trichotomy a.pstart b.pstart with h2 | h2 | h2
      · exact Or.inl (Or.inr ⟨h, Or.inl h2⟩)
      · rcases le_total a.tss b.tss with h3 | h3
        · exact Or.inl (Or.inr ⟨h, Or.inr ⟨h2, h3⟩⟩)
        · exact Or.inr (Or.inr ⟨h.symm, Or.inr ⟨h2.symm, h3⟩⟩)
      · exact Or.inr (Or.inr ⟨h.symm, Or.inl h2⟩)
    · exact Or.inr (Or.inl h)

instance : IsTrans TableRow rowLE where
  trans a b c hab hbc := by
    unfold rowLE at *
    rcases hab with h1 | ⟨e1, h1⟩
    · rcases hbc with h2 | ⟨e2, _⟩
      · exact Or.inl (h1.trans h2)
      · exact Or.inl (e2 ▸ h1)
    · rcases hbc with h2 | ⟨e2, h2⟩
      · exact Or.inl (e1 ▸ h2)
      · refine Or.inr ⟨e1.trans e2, ?_⟩
        rcases h1 with h1 | ⟨f1, g1⟩
        · rcases h2 with h2 | ⟨f2, _⟩
          · exact Or.inl (h1.trans h2)
          · exact Or.inl (f2 ▸ h1)
        · rcases h2 with h2 | ⟨f2, g2⟩
          · exact Or.inl (f1 ▸ h2)
          · exact Or.inr ⟨f1.trans f2, g1.trans g2⟩

def sortRows (l : List TableRow) : List TableRow := l.insertionSort rowLE

/-- Model of `uniq -f7`, which compares lines skipping the first 7 fields, i.e. on
(contig, peak start, peak end). -/
def uniqKey (r : TableRow) : String × Int × Int := (r.contig, r.pstart, r.pend)

/-- The `uniq` pass keeps a line only when it differs from the preceding line. -/
def uniqAux (k : String × Int × Int) : List TableRow → List TableRow
  | [] => []
  | y :: ys =>
    if uniqKey y = k then uniqAux k ys
    else y :: uniqAux (uniqKey y) ys

def uniqF7 : List TableRow → List TableRow
  | [] => []
  | x :: xs => x :: uniqAux (uniqKey x) xs

/-- The nearest-gene reduction of `regulatedTables`: make the table
rows, strip signs (`sed`), sort by (contig, peak start, TSS), and keep
the first row of each (contig, peak start, peak end) run (the closing
`awk` restores the column order and is the identity on the record). -/
def regulatedReduce (rows : List JoinRow) : List TableRow :=
  uniqF7 (sortRows ((rows.map makeRow).map sedAbs))

/-- One peak (span [9,11), centre 10) joined to two candidate genes:
gA with TSS 1 (|distance| 9) and gB with TSS 11 (|distance| 1). -/
def cex2Rows : List JoinRow :=
  [⟨"c", 9, 11, "p1", 5, 1, 2, 10, "gA", "A", "+", 1, 4⟩,
   ⟨"c", 9, 11, "p1", 5, 1, 2, 10, "gB", "B", "+", 11, 14⟩]

/-! ### Helper lemmas for the consolidator -/

theorem peakKey_eq_of_le_ge {a b : PeakRec} (h1 : peakLE a b) (h2 : peakLE b a) :
    peakKey a = peakKey b := by
  unfold peakLE at h1 h2
  unfold peakKey
  rcases h1 with h1 | ⟨e1, l1⟩
  · rcases h2 with h2 | ⟨e2, _⟩
    · exact absurd h2 (lt_asymm h1)
    · exact absurd h1 (e2 ▸ lt_irrefl _)
  · rcases h2 with h2 | ⟨e2, l2⟩
    · exact absurd h2 (e1 ▸ lt_irrefl _)
    · exact Prod.ext e1 (le_antisymm l1 l2)

/-- Two sorted lists that are permutations of one another and whose
(chromosome, start) keys are pairwise distinct are equal. -/
theorem sorted_perm_key_nodup_eq :
    ∀ {l₁ l₂ : List PeakRec}, l₁.Perm l₂ → l₁.Sorted peakLE → l₂.Sorted peakLE →
      (l₁.map peakKey).Nodup → l₁ = l₂ := by
  intro l₁
  induction l₁ with
  | nil =>
    intro l₂ hp _ _ _
    exact hp.nil_eq
  | cons a t ih =>
    intro l₂ hp hs₁ hs₂ hnd
    cases l₂ with
    | nil => exact absurd hp.symm.nil_eq (by simp)
    | cons b t₂ =>
      have hab : a = b := by
        by_contra hne
        have ha2 : a ∈ b :: t₂ := hp.mem_iff.mp (List.mem_cons_self a t)
        have hb1 : b ∈ a :: t := hp.mem_iff.mpr (List.mem_cons_self b t₂)
        have ha : a ∈ t₂ := by
          rcases List.mem_cons.mp ha2 with h | h
          · exact absurd h hne
          · exact h
        have hb : b ∈ t := by
          rcases List.mem_cons.mp hb1 with h | h
          · exact absurd h.symm hne
          · exact h
        have h1 : peakLE a b := (List.sorted_cons.mp hs₁).1 b hb
        have h2 : peakLE b a := (List.sorted_cons.mp hs₂).1 a ha
        have hk : peakKey a = peakKey b := peakKey_eq_of_le_ge h1 h2
        have hbm : peakKey b ∈ t.map peakKey := List.mem_map_of_mem peakKey hb
        exact (List.nodup_cons.mp hnd).1 (hk ▸ hbm)
      subst hab
      have hpt : t.Perm t₂ := hp.cons_inv
      have := ih hpt (List.sorted_cons.mp hs₁).2 (List.sorted_cons.mp hs₂).2
        (List.nodup_cons.mp hnd).2
      rw [this]

theorem sortPeaks_eq_of_perm {l₁ l₂ : List PeakRec} (hp : l₁.Perm l₂)
    (hnd : (l₁.map peakKey).Nodup) : sortPeaks l₁ = sortPeaks l₂ := by
  have p₁ := List.perm_insertionSort peakLE l₁
  have p₂ := List.perm_insertionSort peakLE l₂
  refine sorted_perm_key_nodup_eq (p₁.trans (hp.trans p₂.symm))
    (List.sorted_insertionSort peakLE l₁) (List.sorted_insertionSort peakLE l₂) ?_
  exact ((p₁.map peakKey).nodup_iff).mpr hnd

/-- A `foldl min` over a list yields one of the candidate values. -/
theorem foldl_min_mem {α : Type} [LinearOrder α] :
    ∀ (l : List α) (a : α), l.foldl min a ∈ a :: l := by
  intro l
  induction l with
  | nil => intro a; simp
  | cons b t ih =>
    intro a
    have h := ih (min a b)
    simp only [List.foldl_cons]
    rcases List.mem_cons.mp h with h | h
    · rcases min_choice a b with hc | hc
      · exact List.mem_cons.mpr (Or.inl (h.trans hc))
      · exact List.mem_cons.mpr (Or.inr (List.mem_cons.mpr (Or.inl (h.trans hc))))
    · exact List.mem_cons.mpr (Or.inr (List.mem_cons.mpr (Or.inr h)))

/-- A `foldl min` over a list is a lower bound of all candidate values. -/
theorem foldl_min_le {α : Type} [LinearOrder α] :
    ∀ (l : List α) (a : α), ∀ x ∈ a :: l, l.foldl min a ≤ x := by
  intro l
  induction l with
  | nil =>
    intro a x hx
    simp at hx
    simp [hx]
  | cons b t ih =>
    intro a x hx
    have hmin : List.foldl min a (b :: t) = List.foldl min (min a b) t := by
      simp [List.foldl_cons]
    rw [hmin]
    have hle : List.foldl min (min a b) t ≤ min a b :=
      ih (min a b) (min a b) (List.mem_cons_self _ _)
    rcases List.mem_cons.mp hx with heq | hx
    · rw [heq]
      exact hle.trans (min_le_left a b)
    · rcases List.mem_cons.mp hx with heq | hx
      · rw [heq]
        exact hle.trans (min_le_right a b)
      · exact ih (min a b) x (List.mem_cons_of_mem _ hx)

/-! ### Claim theorems: consolidator -/

/-- Claim C1: a merged peak group appears in the output of
`mergeReplicatePeaks` if and only if the number of distinct replicate
origins parsed from its comma-joined identifier reaches `min_overlap`;
groups with fewer distinct replicates are absent. -/
theorem C1_consensus_threshold_iff (l : List PeakRec) (k : Int) (r : PeakRec) :
    r ∈ consolidateCat l k ↔ r ∈ mergedOutput l ∧ k ≤ (distinctReps r : Int) := by
  simp [consolidateCat, List.mem_filter]

/-- Claim C5: every record emitted by the merge step carries the
comma-joined member identifiers, the mean score, the first member's
strand, the mean fold-change, the minimum p-value, the minimum q-value
and the mean summit offset of its group. -/
theorem C5_merge_aggregation (l : List PeakRec) (r : PeakRec)
    (hr : r ∈ mergedOutput l) :
    ∃ h rest, (h, rest) ∈ mergeGroups (sortPeaks l) ∧ r = aggregate h rest ∧
      r.pid = String.intercalate "," (((h :: rest)).map (fun x => x.pid)) ∧
      r.score = qmean (((h :: rest)).map (fun x => x.score)) ∧
      r.strand = h.strand ∧
      r.fc = qmean (((h :: rest)).map (fun x => x.fc)) ∧
      (r.pval ∈ ((h :: rest)).map (fun x => x.pval) ∧
        ∀ v ∈ ((h :: rest)).map (fun x => x.pval), r.pval ≤ v) ∧
      (r.qval ∈ ((h :: rest)).map (fun x => x.qval) ∧
        ∀ v ∈ ((h :: rest)).map (fun x => x.qval), r.qval ≤ v) ∧
      r.summit = qmean (((h :: rest)).map (fun x => x.summit)) := by
  obtain ⟨⟨h, rest⟩, hmem, hagg⟩ := List.mem_map.mp hr
  refine ⟨h, rest, hmem, hagg.symm, ?_⟩
  subst hagg
  refine ⟨rfl, rfl, rfl, rfl, ⟨?_, ?_⟩, ⟨?_, ?_⟩, rfl⟩
  · simpa [List.map_cons] using foldl_min_mem (rest.map (fun x => x.pval)) h.pval
  · intro v hv
    exact foldl_min_le (rest.map (fun x => x.pval)) h.pval v
      (by simpa [List.map_cons] using hv)
  · simpa [List.map_cons] using foldl_min_mem (rest.map (fun x => x.qval)) h.qval
  · intro v hv
    exact foldl_min_le (rest.map (fun x => x.qval)) h.qval v
      (by simpa [List.map_cons] using hv)

/-- Witness for C5 at a concrete two-replicate input. -/
theorem C5_merge_aggregation_witness :
    ∃ h rest,
      (h, rest) ∈ mergeGroups (sortPeaks [wPeak1, wPeak2]) ∧
      (⟨"chr1", 100, 250, "s_x_y_rep1_p1,s_x_y_rep2_p1", 6, "+", 3, 3, 4, 55⟩ : PeakRec)
        = aggregate h rest ∧
      (⟨"chr1", 100, 250, "s_x_y_rep1_p1,s_x_y_rep2_p1", 6, "+", 3, 3, 4, 55⟩ : PeakRec).pid
        = String.intercalate "," (((h :: rest)).map (fun x => x.pid)) ∧
      (⟨"chr1", 100, 250, "s_x_y_rep1_p1,s_x_y_rep2_p1", 6, "+", 3, 3, 4, 55⟩ : PeakRec).score
        = qmean (((h :: rest)).map (fun x => x.score)) ∧
      (⟨"chr1", 100, 250, "s_x_y_rep1_p1,s_x_y_rep2_p1", 6, "+", 3, 3, 4, 55⟩ : PeakRec).strand
        = h.strand ∧
      (⟨"chr1", 100, 250, "s_x_y_rep1_p1,s_x_y_rep2_p1", 6, "+", 3, 3, 4, 55⟩ : PeakRec).fc
        = qmean (((h :: rest)).map (fun x => x.fc)) ∧
      ((⟨"chr1", 100, 250, "s_x_y_rep1_p1,s_x_y_rep2_p1", 6, "+", 3, 3, 4, 55⟩ : PeakRec).pval
          ∈ ((h :: rest)).map (fun x => x.pval) ∧
        ∀ v ∈ ((h :: rest)).map (fun x => x.pval),
          (⟨"chr1", 100, 250, "s_x_y_rep1_p1,s_x_y_rep2_p1", 6, "+", 3, 3, 4, 55⟩ : PeakRec).pval ≤ v) ∧
      ((⟨"chr1", 100, 250, "s_x_y_rep1_p1,s_x_y_rep2_p1", 6, "+", 3, 3, 4, 55⟩ : PeakRec).qval
          ∈ ((h :: rest)).map (fun x => x.qval) ∧
        ∀ v ∈ ((h :: rest)).map (fun x => x.qval),
          (⟨"chr1", 100, 250, "s_x_y_rep1_p1,s_x_y_rep2_p1", 6, "+", 3, 3, 4, 55⟩ : PeakRec).qval ≤ v) ∧
      (⟨"chr1", 100, 250, "s_x_y_rep1_p1,s_x_y_rep2_p1", 6, "+", 3, 3, 4, 55⟩ : PeakRec).summit
        = qmean (((h :: rest)).map (fun x => x.summit)) :=
  C5_merge_aggregation [wPeak1, wPeak2] _ (by with_unfolding_all decide)

/-- Counterexample to claim C6: permuting the replicate inputs changes
the output byte-for-byte when two intervals tie on (chromosome, start) —
the collapsed identifier order and the `first` strand follow input
order. -/
theorem C6_counterexample :
    consolidate [[cexPeakA], [cexPeakB]] 1 ≠ consolidate [[cexPeakB], [cexPeakA]] 1 := by
  with_unfolding_all decide

/-- Claim C6 (amended): `mergeReplicatePeaks` is a deterministic function
of its input sequence, and is order-insensitive whenever no two input
intervals share a (chromosome, start) sort key. -/
theorem C6_order_insensitive_distinct_keys (l₁ l₂ : List PeakRec) (k : Int)
    (hp : l₁.Perm l₂) (hnd : (l₁.map peakKey).Nodup) :
    consolidateCat l₁ k = consolidateCat l₂ k := by
  unfold consolidateCat mergedOutput
  rw [sortPeaks_eq_of_perm hp hnd]

/-- Witness for the amended C6 at a concrete permuted input. -/
theorem C6_order_insensitive_witness :
    [wPeak1, wPeak3].Perm [wPeak3, wPeak1] ∧
    (([wPeak1, wPeak3]).map peakKey).Nodup ∧
    consolidateCat [wPeak1, wPeak3] 2 = consolidateCat [wPeak3, wPeak1] 2 :=
  ⟨List.Perm.swap wPeak3 wPeak1 [],
   by with_unfolding_all decide,
   C6_order_insensitive_distinct_keys [wPeak1, wPeak3] [wPeak3, wPeak1] 2
     (List.Perm.swap wPeak3 wPeak1 []) (by with_unfolding_all decide)⟩

/-- Claim C8 (amended, consolidator part): `mergeReplicatePeaks` performs
no validation of `min_overlap`; with `min_overlap < 1` the filter is
vacuous and every merged group is emitted rather than an error being
raised. -/
theorem C8_no_validation (l : List PeakRec) (k : Int) (hk : k < 1) :
    consolidateCat l k = mergedOutput l := by
  unfold consolidateCat
  refine List.filter_eq_self.mpr ?_
  intro r _
  have h0 : (0:Int) ≤ (distinctReps r : Int) := Int.ofNat_nonneg _
  simp only [decide_eq_true_eq]
  omega

/-- Witness for the amended C8 at `min_overlap = 0`. -/
theorem C8_no_validation_witness :
    (0 : Int) < 1 ∧ consolidateCat [cexPeakA] 0 = mergedOutput [cexPeakA] :=
  ⟨by decide, C8_no_validation [cexPeakA] 0 (by decide)⟩

/-! ### Helper lemmas for the annotator -/

theorem basalstart_le_pos {bu bd : Int} (hbu : 0 ≤ bu) (hbd : 0 ≤ bd)
    (c : TssRec) : basalstartOf bu bd c ≤ c.pos := by
  unfold basalstartOf
  split <;> omega

theorem pos_le_basalend {bu bd ce : Int} (hbu : 0 ≤ bu) (hbd : 0 ≤ bd)
    (c : TssRec) (hce : c.pos ≤ ce) : c.pos ≤ basalendOf bu bd ce c := by
  unfold basalendOf
  split
  · exact le_min (by omega) hce
  · exact le_min (by omega) hce

/-- The regulatory start never exceeds the TSS. -/
theorem regstartOf_le_pos {bu bd mx : Int} (hbu : 0 ≤ bu) (hbd : 0 ≤ bd)
    (hmx : 0 ≤ mx) (half : Bool) (prev : Option TssRec) (c : TssRec) :
    regstartOf bu bd mx half prev c ≤ (c.pos : Rat) := by
  unfold regstartOf
  split
  · exact_mod_cast (basalstart_le_pos hbu hbd c)
  · rename_i hfs
    push_neg at hfs
    have hfs' : frontstopOf bu bd prev ≤ c.pos :=
      hfs.trans (basalstart_le_pos hbu hbd c)
    have hgap : (0 : Rat) ≤ (c.pos : Rat) - (frontstopOf bu bd prev : Rat) := by
      rw [sub_nonneg]
      exact_mod_cast hfs'
    have hmx' : (0 : Rat) ≤ (mx : Rat) := by exact_mod_cast hmx
    cases half with
    | false =>
      simp only [Bool.false_eq_true, if_false]
      have : (0 : Rat) ≤ min ((mx : Int) : Rat)
          ((c.pos : Rat) - ((frontstopOf bu bd prev : Int) : Rat)) :=
        le_min hmx' hgap
      linarith
    | true =>
      simp only [if_true]
      have : (0 : Rat) ≤ min ((mx : Int) : Rat)
          (((c.pos : Rat) - ((frontstopOf bu bd prev : Int) : Rat)) / 2) :=
        le_min hmx' (by linarith)
      linarith

/-- The TSS never exceeds the regulatory end. -/
theorem pos_le_regendOf {bu bd mx ce : Int} (hbu : 0 ≤ bu) (hbd : 0 ≤ bd)
    (hmx : 0 ≤ mx) (half : Bool) (c : TssRec) (nxt : TssRec)
    (hce : c.pos ≤ ce) :
    (c.pos : Rat) ≤ regendOf bu bd mx half ce c nxt := by
  unfold regendOf
  split
  · exact_mod_cast (pos_le_basalend hbu hbd c hce)
  · rename_i hbs
    push_neg at hbs
    have hbs' : c.pos ≤ backstopOf bu bd nxt :=
      (pos_le_basalend hbu hbd c hce).trans hbs
    have hgap : (0 : Rat) ≤ (backstopOf bu bd nxt : Rat) - (c.pos : Rat) := by
      rw [sub_nonneg]
      exact_mod_cast hbs'
    have hmx' : (0 : Rat) ≤ (mx : Rat) := by exact_mod_cast hmx
    cases half with
    | false =>
      simp only [Bool.false_eq_true, if_false]
      have : (0 : Rat) ≤ min ((mx : Int) : Rat)
          (((backstopOf bu bd nxt : Int) : Rat) - (c.pos : Rat)) :=
        le_min hmx' hgap
      linarith
    | true =>
      simp only [if_true]
      have : (0 : Rat) ≤ min ((mx : Int) : Rat)
          ((((backstopOf bu bd nxt : Int) : Rat) - (c.pos : Rat)) / 2) :=
        le_min hmx' (by linarith)
      linarith

/-- With strictly positive parameters the regulatory start is strictly
below the TSS. -/
theorem regstartOf_lt_pos {bu bd mx : Int} (hbu : 0 < bu) (hbd : 0 < bd)
    (hmx : 0 < mx) (half : Bool) (prev : Option TssRec) (c : TssRec) :
    regstartOf bu bd mx half prev c < (c.pos : Rat) := by
  unfold regstartOf
  split
  · rename_i hfs
    have : basalstartOf bu bd c < c.pos := by
      unfold basalstartOf
      split <;> omega
    exact_mod_cast this
  · rename_i hfs
    push_neg at hfs
    have hfs' : frontstopOf bu bd prev < c.pos := by
      have : basalstartOf bu bd c < c.pos := by
        unfold basalstartOf
        split <;> omega
      omega
    have hgap : (0 : Rat) < (c.pos : Rat) - (frontstopOf bu bd prev : Rat) := by
      rw [sub_pos]
      exact_mod_cast hfs'
    have hmx' : (0 : Rat) < (mx : Rat) := by exact_mod_cast hmx
    cases half with
    | false =>
      simp only [Bool.false_eq_true, if_false]
      have : (0 : Rat) < min ((mx : Int) : Rat)
          ((c.pos : Rat) - ((frontstopOf bu bd prev : Int) : Rat)) :=
        lt_min hmx' hgap
      linarith
    | true =>
      simp only [if_true]
      have : (0 : Rat) < min ((mx : Int) : Rat)
          (((c.pos : Rat) - ((frontstopOf bu bd prev : Int) : Rat)) / 2) :=
        lt_min hmx' (by linarith)
      linarith

/-- The emitted start never crosses the predecessor's basal far edge
beyond the gene's own basal start. -/
theorem min_basal_frontstop_le_regstart {bu bd mx : Int} (hbu : 0 ≤ bu)
    (hbd : 0 ≤ bd) (half : Bool) (prev : Option TssRec) (c : TssRec) :
    ((min (basalstartOf bu bd c) (frontstopOf bu bd prev) : Int) : Rat) ≤
      regstartOf bu bd mx half prev c := by
  unfold regstartOf
  split
  · rename_i hfs
    have : min (basalstartOf bu bd c) (frontstopOf bu bd prev)
        ≤ basalstartOf bu bd c := min_le_left _ _
    exact_mod_cast this
  · rename_i hfs
    push_neg at hfs
    have hmin : min (basalstartOf bu bd c) (frontstopOf bu bd prev)
        = frontstopOf bu bd prev := min_eq_right hfs
    rw [hmin]
    have hfs' : frontstopOf bu bd prev ≤ c.pos :=
      hfs.trans (basalstart_le_pos hbu hbd c)
    have hgapQ : (0 : Rat) ≤ (c.pos : Rat) - (frontstopOf bu bd prev : Rat) := by
      rw [sub_nonneg]
      exact_mod_cast hfs'
    cases half with
    | false =>
      simp only [Bool.false_eq_true, if_false]
      have : min ((mx : Int) : Rat)
          ((c.pos : Rat) - ((frontstopOf bu bd prev : Int) : Rat))
          ≤ (c.pos : Rat) - ((frontstopOf bu bd prev : Int) : Rat) :=
        min_le_right _ _
      linarith
    | true =>
      simp only [if_true]
      have h2 : ((c.pos : Rat) - ((frontstopOf bu bd prev : Int) : Rat)) / 2
          ≤ (c.pos : Rat) - ((frontstopOf bu bd prev : Int) : Rat) :=
        half_le_self hgapQ
      have : min ((mx : Int) : Rat)
          (((c.pos : Rat) - ((frontstopOf bu bd prev : Int) : Rat)) / 2)
          ≤ ((c.pos : Rat) - ((frontstopOf bu bd prev : Int) : Rat)) / 2 :=
        min_le_right _ _
      linarith

/-- The emitted end never crosses the successor's basal near edge beyond
the gene's own basal end. -/
theorem regend_le_max_basal_backstop {bu bd mx ce : Int} (hbu : 0 ≤ bu)
    (hbd : 0 ≤ bd) (half : Bool) (c : TssRec) (nxt : TssRec)
    (hce : c.pos ≤ ce) :
    regendOf bu bd mx half ce c nxt ≤
      ((max (basalendOf bu bd ce c) (backstopOf bu bd nxt) : Int) : Rat) := by
  unfold regendOf
  split
  · rename_i hbs
    have : basalendOf bu bd ce c
        ≤ max (basalendOf bu bd ce c) (backstopOf bu bd nxt) := le_max_left _ _
    exact_mod_cast this
  · rename_i hbs
    push_neg at hbs
    have hmax : max (basalendOf bu bd ce c) (backstopOf bu bd nxt)
        = backstopOf bu bd nxt := max_eq_right hbs
    rw [hmax]
    have hbs' : c.pos ≤ backstopOf bu bd nxt :=
      (pos_le_basalend hbu hbd c hce).trans hbs
    have hgapQ : (0 : Rat) ≤ (backstopOf bu bd nxt : Rat) - (c.pos : Rat) := by
      rw [sub_nonneg]
      exact_mod_cast hbs'
    cases half with
    | false =>
      simp only [Bool.false_eq_true, if_false]
      have : min ((mx : Int) : Rat)
          (((backstopOf bu bd nxt : Int) : Rat) - (c.pos : Rat))
          ≤ ((backstopOf bu bd nxt : Int) : Rat) - (c.pos : Rat) :=
        min_le_right _ _
      linarith
    | true =>
      simp only [if_true]
      have h2 : (((backstopOf bu bd nxt : Int) : Rat) - (c.pos : Rat)) / 2
          ≤ ((backstopOf bu bd nxt : Int) : Rat) - (c.pos : Rat) :=
        half_le_self hgapQ
      have : min ((mx : Int) : Rat)
          ((((backstopOf bu bd nxt : Int) : Rat) - (c.pos : Rat)) / 2)
          ≤ (((backstopOf bu bd nxt : Int) : Rat) - (c.pos : Rat)) / 2 :=
        min_le_right _ _
      linarith

/-- Every domain in a successful walk is the `geneDomain` of some
non-`"end"` record of the walked list. -/
theorem walk_ok_mem {bu bd mx : Int} {half : Bool} {ce : Int} {chrom : String} :
    ∀ {locs : List TssRec} {prev : Option TssRec} {ds : List Dom},
      walkLocs bu bd mx half ce chrom prev locs = .ok ds →
      ∀ d ∈ ds, ∃ prev' c nxt, c ∈ locs ∧ c.strand ≠ "end" ∧
        d = geneDomain bu bd mx half ce chrom prev' c nxt := by
  intro locs
  induction locs with
  | nil =>
    intro prev ds h d hd
    simp only [walkLocs] at h
    cases h
    simp at hd
  | cons c rest ih =>
    intro prev ds h d hd
    by_cases hend : c.strand = "end"
    · simp only [walkLocs] at h
      rw [if_pos hend] at h
      obtain ⟨p', c', nxt, hc', hne, hdom⟩ := ih h d hd
      exact ⟨p', c', nxt, List.mem_cons_of_mem _ hc', hne, hdom⟩
    · simp only [walkLocs] at h
      rw [if_neg hend] at h
      cases rest with
      | nil => cases h
      | cons nxt rest' =>
        cases hw : walkLocs bu bd mx half ce chrom (some c) (nxt :: rest') with
        | error e => rw [hw] at h; cases h
        | ok ds' =>
          rw [hw] at h
          cases h
          rcases List.mem_cons.mp hd with hd | hd
          · exact ⟨prev, c, nxt, List.mem_cons_self _ _, hend, hd⟩
          · obtain ⟨p', c', nxt', hc', hne, hdom⟩ := ih hw d hd
            exact ⟨p', c', nxt', List.mem_cons_of_mem _ hc', hne, hdom⟩

/-- Every domain in a successful walk comes from a gene `c` at an
explicit position of the walked list: the list splits as
`l1 ++ c :: nxt :: l2`, so `nxt` is the record directly after `c`, and
the predecessor handed to `geneDomain` is exactly the record directly
before `c` (`lastOr prev l1`: the last record of the prefix, or the
walk's initial predecessor when `c` is first). -/
theorem walk_ok_adjacent {bu bd mx : Int} {half : Bool} {ce : Int}
    {chrom : String} :
    ∀ {locs : List TssRec} {prev : Option TssRec} {ds : List Dom},
      walkLocs bu bd mx half ce chrom prev locs = .ok ds →
      ∀ d ∈ ds, ∃ l1 c nxt l2, locs = l1 ++ c :: nxt :: l2 ∧
        c.strand ≠ "end" ∧
        d = geneDomain bu bd mx half ce chrom (lastOr prev l1) c nxt := by
  intro locs
  induction locs with
  | nil =>
    intro prev ds h d hd
    simp only [walkLocs] at h
    cases h
    simp at hd
  | cons c rest ih =>
    intro prev ds h d hd
    by_cases hend : c.strand = "end"
    · simp only [walkLocs] at h
      rw [if_pos hend] at h
      obtain ⟨l1, c', nxt, l2, hsplit, hne, hdom⟩ := ih h d hd
      refine ⟨c :: l1, c', nxt, l2, ?_, hne, ?_⟩
      · rw [List.cons_append, hsplit]
      · simpa only [lastOr] using hdom
    · simp only [walkLocs] at h
      rw [if_neg hend] at h
      cases rest with
      | nil => cases h
      | cons nxt rest' =>
        cases hw : walkLocs bu bd mx half ce chrom (some c) (nxt :: rest') with
        | error e => rw [hw] at h; cases h
        | ok ds' =>
          rw [hw] at h
          cases h
          rcases List.mem_cons.mp hd with hd | hd
          · exact ⟨[], c, nxt, rest', rfl, hend, by simpa only [lastOr] using hd⟩
          · obtain ⟨l1, c', nxt', l2, hsplit, hne, hdom⟩ := ih hw d hd
            refine ⟨c :: l1, c', nxt', l2, ?_, hne, ?_⟩
            · rw [List.cons_append, hsplit]
            · simpa only [lastOr] using hdom

/-- A successful walk never carries the incomplete-reference error; the
only error the walk can produce is the index error. -/
theorem walk_ne_incomplete {bu bd mx : Int} {half : Bool} {ce : Int}
    {chrom : String} :
    ∀ {locs : List TssRec} {prev : Option TssRec},
      walkLocs bu bd mx half ce chrom prev locs ≠
        .error GreatError.incompleteReference := by
  intro locs
  induction locs with
  | nil =>
    intro prev h
    simp [walkLocs] at h
  | cons c rest ih =>
    intro prev h
    by_cases hend : c.strand = "end"
    · simp only [walkLocs] at h
      rw [if_pos hend] at h
      exact ih h
    · simp only [walkLocs] at h
      rw [if_neg hend] at h
      cases rest with
      | nil => cases h
      | cons nxt rest' =>
        cases hw : walkLocs bu bd mx half ce chrom (some c) (nxt :: rest') with
        | error e =>
          rw [hw] at h
          cases h
          exact ih hw
        | ok ds' => rw [hw] at h; cases h

/-- Every domain in a successful `goChroms` run comes from the walk of
one chromosome of the genome map. -/
theorem goChroms_ok_mem {bu bd mx : Int} {half : Bool} :
    ∀ {genome : List (String × List TssRec)} {ds : List Dom},
      goChroms bu bd mx half genome = .ok ds →
      ∀ d ∈ ds, ∃ chrom rs, (chrom, rs) ∈ genome ∧
        ∃ prev c nxt, c ∈ sortRecs rs ∧ c.strand ≠ "end" ∧
          d = geneDomain bu bd mx half (ceOf (sortRecs rs)) chrom prev c nxt := by
  intro genome
  induction genome with
  | nil =>
    intro ds h d hd
    simp only [goChroms] at h
    cases h
    simp at hd
  | cons p rest ih =>
    intro ds h d hd
    obtain ⟨chrom, rs⟩ := p
    rw [goChroms] at h
    cases hw : walkLocs bu bd mx half (ceOf (sortRecs rs)) chrom none (sortRecs rs) with
    | error e => rw [hw] at h; cases h
    | ok ds1 =>
      rw [hw] at h
      cases hg : goChroms bu bd mx half rest with
      | error e => rw [hg] at h; cases h
      | ok ds2 =>
        rw [hg] at h
        cases h
        rcases List.mem_append.mp hd with hd | hd
        · obtain ⟨p', c, nxt, hc, hne, hdom⟩ := walk_ok_mem hw d hd
          exact ⟨chrom, rs, List.mem_cons_self _ _, p', c, nxt, hc, hne, hdom⟩
        · obtain ⟨ch', rs', hmem, rest'⟩ := ih hg d hd
          exact ⟨ch', rs', List.mem_cons_of_mem _ hmem, rest'⟩

/-- Every domain in a successful `goChroms` run comes from one
chromosome of the genome map, at an explicit position of that
chromosome's sorted record list: the sorted list splits as
`l1 ++ c :: nxt :: l2` and the predecessor used is `lastOr none l1`,
the record directly before `c` (or none when `c` is first). -/
theorem goChroms_ok_adjacent {bu bd mx : Int} {half : Bool} :
    ∀ {genome : List (String × List TssRec)} {ds : List Dom},
      goChroms bu bd mx half genome = .ok ds →
      ∀ d ∈ ds, ∃ chrom rs l1 c nxt l2, (chrom, rs) ∈ genome ∧
        sortRecs rs = l1 ++ c :: nxt :: l2 ∧ c.strand ≠ "end" ∧
        d = geneDomain bu bd mx half (ceOf (sortRecs rs)) chrom
          (lastOr none l1) c nxt := by
  intro genome
  induction genome with
  | nil =>
    intro ds h d hd
    simp only [goChroms] at h
    cases h
    simp at hd
  | cons p rest ih =>
    intro ds h d hd
    obtain ⟨chrom, rs⟩ := p
    rw [goChroms] at h
    cases hw : walkLocs bu bd mx half (ceOf (sortRecs rs)) chrom none (sortRecs rs) with
    | error e => rw [hw] at h; cases h
    | ok ds1 =>
      rw [hw] at h
      cases hg : goChroms bu bd mx half rest with
      | error e => rw [hg] at h; cases h
      | ok ds2 =>
        rw [hg] at h
        cases h
        rcases List.mem_append.mp hd with hd | hd
        · obtain ⟨l1, c, nxt, l2, hsplit, hne, hdom⟩ := walk_ok_adjacent hw d hd
          exact ⟨chrom, rs, l1, c, nxt, l2, List.mem_cons_self _ _, hsplit, hne, hdom⟩
        · obtain ⟨ch', rs', l1, c, nxt, l2, hmem, rest'⟩ := ih hg d hd
          exact ⟨ch', rs', l1, c, nxt, l2, List.mem_cons_of_mem _ hmem, rest'⟩

/-- The walk over all chromosomes never produces the incomplete-reference error. -/
theorem goChroms_ne_incomplete {bu bd mx : Int} {half : Bool} :
    ∀ {genome : List (String × List TssRec)},
      goChroms bu bd mx half genome ≠
        .error GreatError.incompleteReference := by
  intro genome
  induction genome with
  | nil =>
    intro h
    simp [goChroms] at h
  | cons p rest ih =>
    intro h
    obtain ⟨chrom, rs⟩ := p
    rw [goChroms] at h
    cases hw : walkLocs bu bd mx half (ceOf (sortRecs rs)) chrom none (sortRecs rs) with
    | error e =>
      rw [hw] at h
      cases h
      exact walk_ne_incomplete hw
    | ok ds1 =>
      rw [hw] at h
      cases hg : goChroms bu bd mx half rest with
      | error e =>
        rw [hg] at h
        cases h
        exact ih hg
      | ok ds2 => rw [hg] at h; cases h

/-- Every member of a position-sorted record list lies at or before the
last record's position (`contig_end`). -/
theorem mem_le_ceOf :
    ∀ {l : List TssRec}, l.Sorted recLE → ∀ {x : TssRec}, x ∈ l →
      x.pos ≤ ceOf l := by
  intro l
  induction l with
  | nil =>
    intro _ x hx
    simp at hx
  | cons a t ih =>
    intro hs x hx
    cases t with
    | nil =>
      rcases List.mem_cons.mp hx with heq | hx
      · rw [heq]
        simp [ceOf]
      · simp at hx
    | cons b t' =>
      have hce : ceOf (a :: b :: t') = ceOf (b :: t') := by
        simp [ceOf, List.getLast?_cons_cons]
      rw [hce]
      rcases List.mem_cons.mp hx with heq | hx
      · have hab : recLE a b := (List.sorted_cons.mp hs).1 b (List.mem_cons_self _ _)
        have hb : b.pos ≤ ceOf (b :: t') :=
          ih (List.sorted_cons.mp hs).2 (List.mem_cons_self _ _)
        rw [heq]
        exact le_trans hab hb
      · exact ih (List.sorted_cons.mp hs).2 hx

/-- Membership in the output of `insertRec` traces back to the
accumulator or to the inserted record. -/
theorem insertRec_mem :
    ∀ {acc : List (String × List TssRec)} {c : String} {r : TssRec}
      {p : String × List TssRec}, p ∈ insertRec acc c r → ∀ x ∈ p.2,
        (∃ q ∈ acc, x ∈ q.2) ∨ x = r := by
  intro acc
  induction acc with
  | nil =>
    intro c r p hp x hx
    simp only [insertRec] at hp
    rcases List.mem_singleton.mp hp with rfl
    rcases List.mem_singleton.mp hx with rfl
    exact Or.inr rfl
  | cons q acc' ih =>
    intro c r p hp x hx
    obtain ⟨c', rs⟩ := q
    rw [insertRec] at hp
    by_cases hc : c' = c
    · rw [if_pos hc] at hp
      rcases List.mem_cons.mp hp with heq | hmem
      · subst heq
        rcases List.mem_append.mp hx with hx | hx
        · exact Or.inl ⟨(c', rs), List.mem_cons_self _ _, hx⟩
        · rcases List.mem_singleton.mp hx with rfl
          exact Or.inr rfl
      · exact Or.inl ⟨p, List.mem_cons_of_mem _ hmem, hx⟩
    · rw [if_neg hc] at hp
      rcases List.mem_cons.mp hp with heq | hmem
      · subst heq
        exact Or.inl ⟨(c', rs), List.mem_cons_self _ _, hx⟩
      · rcases ih hmem x hx with ⟨q', hq', hxq⟩ | heq
        · exact Or.inl ⟨q', List.mem_cons_of_mem _ hq', hxq⟩
        · exact Or.inr heq

/-- Every record in the genome map built by `buildGenomeAux` comes from
the accumulator or is the gene record of an unexcluded input gene. -/
theorem buildGenomeAux_mem :
    ∀ {gs : List GeneLoc} {acc : List (String × List TssRec)}
      {p : String × List TssRec}, p ∈ buildGenomeAux acc gs → ∀ x ∈ p.2,
        (∃ q ∈ acc, x ∈ q.2) ∨ ∃ g ∈ gs, x = geneRec g := by
  intro gs
  induction gs with
  | nil =>
    intro acc p hp x hx
    simp only [buildGenomeAux] at hp
    exact Or.inl ⟨p, hp, hx⟩
  | cons g gs' ih =>
    intro acc p hp x hx
    rw [buildGenomeAux] at hp
    by_cases hex : excludedChrom g.chrom
    · rw [if_pos hex] at hp
      rcases ih hp x hx with h | ⟨g', hg', heq⟩
      · exact Or.inl h
      · exact Or.inr ⟨g', List.mem_cons_of_mem _ hg', heq⟩
    · rw [if_neg hex] at hp
      rcases ih hp x hx with ⟨q, hq, hxq⟩ | ⟨g', hg', heq⟩
      · rcases insertRec_mem hq x hxq with h | heq
        · exact Or.inl h
        · exact Or.inr ⟨g, List.mem_cons_self _ _, heq⟩
      · exact Or.inr ⟨g', List.mem_cons_of_mem _ hg', heq⟩

/-- Every record of the genome map is the gene record of an input gene. -/
theorem buildGenome_mem {locations : List GeneLoc}
    {p : String × List TssRec} (hp : p ∈ buildGenome locations)
    {x : TssRec} (hx : x ∈ p.2) : ∃ g ∈ locations, x = geneRec g := by
  rcases buildGenomeAux_mem hp x hx with ⟨q, hq, _⟩ | h
  · simp at hq
  · exact h

/-- A non-`"end"` record of the end-extended genome map comes from the
original genome map. -/
theorem appendEnds_mem {genome : List (String × List TssRec)}
    {contigs : List (String × Int)} {p : String × List TssRec}
    (hp : p ∈ appendEnds genome contigs) {x : TssRec} (hx : x ∈ p.2)
    (hne : x.strand ≠ "end") : ∃ q ∈ genome, x ∈ q.2 := by
  obtain ⟨q, hq, heq⟩ := List.mem_map.mp hp
  subst heq
  simp only at hx
  rcases List.mem_append.mp hx with hx | hx
  · exact ⟨q, hq, hx⟩
  · obtain ⟨e, _, heq⟩ := List.mem_map.mp hx
    rw [← heq] at hne
    simp at hne

/-- A successful `writeGreat` run passes the chromosome-end count check
and is a successful `goChroms` run. -/
theorem writeGreat_ok_elim {locations : List GeneLoc}
    {contigs : List (String × Int)} {bu bd mx : Int} {half : Bool}
    {doms : List Dom}
    (hok : writeGreat locations contigs bu bd mx half = .ok doms) :
    goChroms bu bd mx half (appendEnds (buildGenome locations) contigs)
      = .ok doms := by
  unfold writeGreat at hok
  by_cases h : matchedCount (buildGenome locations) contigs < 21
  · rw [if_pos h] at hok
    cases hok
  · rwa [if_neg h] at hok

/-! ### Claim theorems: annotator -/

set_option maxRecDepth 8000 in
/-- Counterexample to claim C3: on two plus-strand genes 3 bp apart
(`basal_upstream = 5`, `basal_downstream = 1`), the second gene's
emitted regulatory start (1) lies below the predecessor's basal far
edge (3 + 1 = 4): the gene's own basal domain is assigned regardless of
the neighbour, so emitted domains do overlap a neighbour's basal
domain. -/
theorem C3_counterexample :
    writeGreat cex3Locs cex3Contigs 5 1 1000 false =
      .ok [⟨"c1", -2, 4, "g1"⟩, ⟨"c1", 1, 49, "g2"⟩] ∧
    ((1 : Rat) <
      ((frontstopOf 5 1 (some (geneRec ⟨"c1", 3, 20, "+", "g1"⟩)) : Int) : Rat)) := by
  with_unfolding_all decide

/-- Claim C3 (amended): every domain emitted by `writeGreat` comes from
a gene record `c` at an explicit position of its chromosome's sorted
record list (`sortRecs rs = l1 ++ c :: nxt :: l2` for a chromosome
`(chrom, rs)` of the end-extended genome map), and relative to the
gene's actual predecessor (`lastOr none l1`, the record directly before
`c`, or none when `c` is first) and its actual successor `nxt`, the
domain never crosses the neighbours' basal edges beyond the gene's own
basal domain: `min(basalstart, frontstop) ≤ regstart` and
`regend ≤ max(basalend, backstop)`.  (When a neighbour's basal edge
intrudes into the gene's own basal domain, the emitted bound is the
basal bound itself and may overlap the neighbour's basal domain.) -/
theorem C3_extension_respects_basal (locations : List GeneLoc)
    (contigs : List (String × Int)) (bu bd mx : Int) (half : Bool)
    (doms : List Dom) (hbu : 0 ≤ bu) (hbd : 0 ≤ bd)
    (hok : writeGreat locations contigs bu bd mx half = .ok doms) :
    ∀ d ∈ doms, ∃ chrom rs l1 c nxt l2,
      (chrom, rs) ∈ appendEnds (buildGenome locations) contigs ∧
      sortRecs rs = l1 ++ c :: nxt :: l2 ∧
      c.strand ≠ "end" ∧
      d = geneDomain bu bd mx half (ceOf (sortRecs rs)) chrom
        (lastOr none l1) c nxt ∧
      ((min (basalstartOf bu bd c) (frontstopOf bu bd (lastOr none l1)) : Int) : Rat)
        ≤ d.regstart ∧
      d.regend ≤
        ((max (basalendOf bu bd (ceOf (sortRecs rs)) c)
            (backstopOf bu bd nxt) : Int) : Rat) := by
  intro d hd
  obtain ⟨chrom, rs, l1, c, nxt, l2, hmem, hsplit, hne, hdom⟩ :=
    goChroms_ok_adjacent (writeGreat_ok_elim hok) d hd
  have hc : c ∈ sortRecs rs := by
    rw [hsplit]
    exact List.mem_append.mpr (Or.inr (List.mem_cons_self _ _))
  have hce : c.pos ≤ ceOf (sortRecs rs) :=
    mem_le_ceOf (List.sorted_insertionSort recLE rs) hc
  refine ⟨chrom, rs, l1, c, nxt, l2, hmem, hsplit, hne, hdom, ?_, ?_⟩
  · rw [hdom]
    exact min_basal_frontstop_le_regstart hbu hbd half (lastOr none l1) c
  · rw [hdom]
    exact regend_le_max_basal_backstop hbu hbd half c nxt hce

set_option maxRecDepth 8000 in
/-- Witness for the amended C3 at a concrete input. -/
theorem C3_extension_respects_basal_witness :
    (0 : Int) ≤ 5 ∧ (0 : Int) ≤ 1 ∧
    (∀ d ∈ ([⟨"c1", -2, 49, "g1"⟩] : List Dom),
      ∃ chrom rs l1 c nxt l2,
        (chrom, rs) ∈ appendEnds (buildGenome wgLocs) wgContigs ∧
        sortRecs rs = l1 ++ c :: nxt :: l2 ∧
        c.strand ≠ "end" ∧
        d = geneDomain 5 1 1000 false (ceOf (sortRecs rs)) chrom
          (lastOr none l1) c nxt ∧
        ((min (basalstartOf 5 1 c) (frontstopOf 5 1 (lastOr none l1)) : Int) : Rat)
          ≤ d.regstart ∧
        d.regend ≤
          ((max (basalendOf 5 1 (ceOf (sortRecs rs)) c)
              (backstopOf 5 1 nxt) : Int) : Rat)) :=
  ⟨by decide, by decide,
   C3_extension_respects_basal wgLocs wgContigs 5 1 1000 false
     [⟨"c1", -2, 49, "g1"⟩] (by decide) (by decide)
     (by with_unfolding_all decide)⟩

/-- Claim C4: every regulatory domain emitted by `writeGreat` contains
the TSS of the gene it annotates: `regstart ≤ TSS ≤ regend`, where the
TSS is the gene start on the plus strand and the gene end on the minus
strand. -/
theorem C4_domain_contains_tss (locations : List GeneLoc)
    (contigs : List (String × Int)) (bu bd mx : Int) (half : Bool)
    (doms : List Dom) (hbu : 0 ≤ bu) (hbd : 0 ≤ bd) (hmx : 0 ≤ mx)
    (hok : writeGreat locations contigs bu bd mx half = .ok doms) :
    ∀ d ∈ doms, ∃ g ∈ locations, g.gid = d.gid ∧
      d.regstart ≤ ((tssOf g : Int) : Rat) ∧
      ((tssOf g : Int) : Rat) ≤ d.regend := by
  intro d hd
  obtain ⟨chrom, rs, hmem, prev, c, nxt, hc, hne, hdom⟩ :=
    goChroms_ok_mem (writeGreat_ok_elim hok) d hd
  have hcrs : c ∈ rs := (List.mem_insertionSort recLE).mp hc
  obtain ⟨q, hq, hxq⟩ := appendEnds_mem hmem hcrs hne
  obtain ⟨g, hg, hgeq⟩ := buildGenome_mem hq hxq
  have hpos : c.pos = tssOf g := by rw [hgeq]; simp [geneRec]
  have hgid : c.gid = g.gid := by rw [hgeq]; simp [geneRec]
  have hce : c.pos ≤ ceOf (sortRecs rs) :=
    mem_le_ceOf (List.sorted_insertionSort recLE rs) hc
  refine ⟨g, hg, ?_, ?_, ?_⟩
  · rw [hdom]
    exact hgid.symm
  · rw [hdom]
    show regstartOf bu bd mx half prev c ≤ _
    rw [← hpos]
    exact regstartOf_le_pos hbu hbd hmx half prev c
  · rw [hdom]
    show _ ≤ regendOf bu bd mx half (ceOf (sortRecs rs)) c nxt
    rw [← hpos]
    exact pos_le_regendOf hbu hbd hmx half c nxt hce

set_option maxRecDepth 8000 in
/-- Witness for C4 at a concrete input. -/
theorem C4_domain_contains_tss_witness :
    (0 : Int) ≤ 5 ∧ (0 : Int) ≤ 1 ∧ (0 : Int) ≤ 1000 ∧
    (∀ d ∈ ([⟨"c1", -2, 49, "g1"⟩] : List Dom),
      ∃ g ∈ wgLocs, g.gid = d.gid ∧
        d.regstart ≤ ((tssOf g : Int) : Rat) ∧
        ((tssOf g : Int) : Rat) ≤ d.regend) :=
  ⟨by decide, by decide, by decide,
   C4_domain_contains_tss wgLocs wgContigs 5 1 1000 false
     [⟨"c1", -2, 49, "g1"⟩] (by decide) (by decide) (by decide)
     (by with_unfolding_all decide)⟩

set_option maxRecDepth 8000 in
/-- Counterexample to claim C7: with a contig table of 21 duplicate
entries for a single chromosome, only one chromosome has a registered
end (far fewer than the plausible minimum of 21), yet `writeGreat`
raises no error and emits domains — the source counts matched contig
lines, not chromosomes. -/
theorem C7_counterexample :
    writeGreat wgLocs wgContigs 5 1 1000 false =
      .ok [⟨"c1", -2, 49, "g1"⟩] ∧
    (((wgContigs.filter
        (fun e => (buildGenome wgLocs).any (fun p => p.1 == e.1))).map
          Prod.fst).dedup).length = 1 ∧
    1 < 21 := by
  with_unfolding_all decide

/-- Claim C7 (amended): `writeGreat` fails with the
incomplete-reference error — before emitting any domain — exactly when
fewer than 21 contig-table entries (counted with multiplicity) match a
chromosome of the genome map. -/
theorem C7_error_iff (locations : List GeneLoc)
    (contigs : List (String × Int)) (bu bd mx : Int) (half : Bool) :
    writeGreat locations contigs bu bd mx half =
        .error GreatError.incompleteReference ↔
      matchedCount (buildGenome locations) contigs < 21 := by
  unfold writeGreat
  by_cases h : matchedCount (buildGenome locations) contigs < 21
  · rw [if_pos h]
    simp [h]
  · rw [if_neg h]
    constructor
    · intro hgo
      exact absurd hgo goChroms_ne_incomplete
    · intro hc
      exact absurd hc h

set_option maxRecDepth 8000 in
/-- Counterexample to claim C9: a gene whose TSS (3) is closer to the
chromosome start than `basal_upstream` (5) is emitted with a negative
start coordinate — `writeGreat` never clips at zero. -/
theorem C9_counterexample :
    writeGreat wgLocs wgContigs 5 1 1000 false =
      .ok [⟨"c1", -2, 49, "g1"⟩] ∧
    ((-2 : Rat) < 0) := by
  with_unfolding_all decide

/-- Claim C9 (amended): with strictly positive basal distances and
maximum extension, every emitted interval satisfies `start < end`; the
claimed `start ≥ 0` does not hold (there is no clipping at zero). -/
theorem C9_nonempty_intervals (locations : List GeneLoc)
    (contigs : List (String × Int)) (bu bd mx : Int) (half : Bool)
    (doms : List Dom) (hbu : 0 < bu) (hbd : 0 < bd) (hmx : 0 < mx)
    (hok : writeGreat locations contigs bu bd mx half = .ok doms) :
    ∀ d ∈ doms, d.regstart < d.regend := by
  intro d hd
  obtain ⟨chrom, rs, hmem, prev, c, nxt, hc, hne, hdom⟩ :=
    goChroms_ok_mem (writeGreat_ok_elim hok) d hd
  have hce : c.pos ≤ ceOf (sortRecs rs) :=
    mem_le_ceOf (List.sorted_insertionSort recLE rs) hc
  rw [hdom]
  exact lt_of_lt_of_le (regstartOf_lt_pos hbu hbd hmx half prev c)
    (pos_le_regendOf hbu.le hbd.le hmx.le half c nxt hce)

set_option maxRecDepth 8000 in
/-- Witness for the amended C9 at a concrete input. -/
theorem C9_nonempty_intervals_witness :
    (0 : Int) < 5 ∧ (0 : Int) < 1 ∧ (0 : Int) < 1000 ∧
    (∀ d ∈ ([⟨"c1", -2, 49, "g1"⟩] : List Dom),
      d.regstart < d.regend) :=
  ⟨by decide, by decide, by decide,
   C9_nonempty_intervals wgLocs wgContigs 5 1 1000 false
     [⟨"c1", -2, 49, "g1"⟩] (by decide) (by decide) (by decide)
     (by with_unfolding_all decide)⟩

set_option maxRecDepth 8000 in
/-- Claim C10: in `half` mode the extensions use Python's true division
by 2, so an odd gap yields a non-integer emitted coordinate: with TSS 7
the emitted domain is [7/2, 55/2] and both coordinates have
denominator 2 (written `3.5` and `27.5` by the source's `str`). -/
theorem C10_half_true_division :
    writeGreat c10Locs c10Contigs 2 2 1000 true =
      .ok [⟨"c1", 7/2, 55/2, "gX"⟩] ∧
    ((7 : Rat)/2).den = 2 ∧ ((55 : Rat)/2).den = 2 := by
  with_unfolding_all decide

set_option maxRecDepth 8000 in
/-- Counterexample to claim C8: with `min_overlap = 0 < 1` the
consolidator emits its merged record instead of failing, and with
negative basal distances `writeGreat` emits a domain instead of
failing — no configuration validation exists. -/
theorem C8_counterexample :
    consolidateCat [cexPeakA] 0 = [cexPeakA] ∧
    writeGreat wgLocs wgContigs (-5) (-1) 1000 false =
      .ok [⟨"c1", 0, 51, "g1"⟩] := by
  with_unfolding_all decide

/-- Claim C2 at its failing input: the peak with centre 10 has the
candidate genes gA (|distance| 9) and gB (|distance| 1), yet the
pipeline keeps gA — the row with the smaller TSS column — because
`sort -k8,8 -k9,9n -k7,7n` sorts on the TSS field (7) and never on the
absolute-distance field (5) that `sed` prepared, while `uniq -f7` keeps
the first sorted row per peak.  The source's own comment
("get closest genes 2 peaks, 1 gene per peak") promises the nearest
gene, so the code contradicts its stated intent. -/
theorem C2_nearest_gene_failing_input :
    regulatedReduce cex2Rows = [⟨"c", 9, 11, "p1", 5, 2, 10, 9, "gA", 1⟩] ∧
    ((1 : Rat) < 9) := by
  with_unfolding_all decide

end Atac
